import Mathlib

/-!
Verification of the stack box blur `surface_blur` of `src/cairo.cpp`
(lines 714-776).  The routine blurs a packed 32-bit-per-pixel image in
place: for three iterations it processes the four byte channels one
after the other; for each channel it first fills a 2D prefix-sum
("integral image") table `precalc` of C `unsigned` (32-bit) values and
then rewrites every pixel of an inset rectangle with a windowed
average obtained from four corner reads of that table.

Modelling choices, all read off the C source:

* a pixel buffer is a function `ℕ → ℕ` from byte offsets to byte
  values; the routine addresses byte `4*(y*width+x) + channel`
  (the code's pointer walk assumes `stride = width*4`);
* C `unsigned` arithmetic is arithmetic modulo `2^32` (`wrap32`); the
  conversion back to `int` reads values at or above `2^31` as negative
  (`totIOf`), as on the two's-complement targets cairo supports;
* `double mul = 1.f/((radius*2)*(radius*2))` is the IEEE-754 binary32
  reciprocal: correctly rounded, nearest/ties-to-even, at 24 bits of
  precision.  This is exact as long as the `int` divisor converts to
  `float` exactly, i.e. whenever `(radius*2)^2 < 2^24`, which holds for
  every image satisfying the size hypotheses used below.  The product
  `tot * mul` is one binary64 multiplication (the `int tot` converts to
  `double` exactly), so it is rounded once more at 53 bits, and the
  `(unsigned char)` cast truncates toward zero and keeps the low byte —
  the x86-64/AArch64 behaviour; the C standard leaves the cast
  undefined when the value is out of range or NaN.  In particular for
  `radius = 1` the code computes `mul = 1.f/0 = +inf` and stores
  `(unsigned char)(0 * inf) = (unsigned char)NaN`, which both x86-64
  and AArch64 truncation instructions turn into byte `0`; the model
  fixes that byte to `0`.
-/

namespace SilkBlur

set_option maxRecDepth 100000

/-- C `unsigned` is 32 bits: table entries live modulo `W32 = 2^32`. -/
def W32 : ℕ := 4294967296

/-- Threshold `2^31`: an `unsigned` value at or above it reads back as a
negative `int`. -/
def HALF32 : ℕ := 2147483648

/-- Store a signed intermediate result into an `unsigned` cell
(cairo.cpp 747-751: `int tot` mixed with `unsigned` operands wraps
modulo `2^32`). -/
def wrap32 (z : ℤ) : ℕ := (z % (4294967296 : ℤ)).toNat

/-- Reinterpret the `unsigned` four-corner combination as the `int tot`
of cairo.cpp 764 (two's complement). -/
def totIOf (u : ℕ) : ℤ := if u < HALF32 then (u : ℤ) else (u : ℤ) - 4294967296

/-- One row of the precomputation loop (cairo.cpp 745-753), cells built
left to right: cell `x` holds `pix + pre[-1] (if x>0) + pre[-width]
(if y>0) - pre[-width-1] (if x>0 and y>0)`, wrapped to `unsigned`.
`ypos` records `y > 0` and `prev` is the previous accumulator row. -/
def rowScan (pixrow prev : ℕ → ℕ) (ypos : Bool) : ℕ → List ℕ
  | 0 => []
  | n + 1 =>
      let l := rowScan pixrow prev ypos n
      l ++ [wrap32 ((pixrow n : ℤ)
          + (if 0 < n then (l.getD (n - 1) 0 : ℤ) else 0)
          + (if ypos then (prev n : ℤ) else 0)
          - (if 0 < n ∧ ypos then (prev (n - 1) : ℤ) else 0))]

/-- Rows `0..y` of the `precalc` table, row `y` as a list of `w` cells
(the row-major fill of cairo.cpp 745-754). -/
def preRow (pix : ℕ → ℕ → ℕ) (w : ℕ) : ℕ → List ℕ
  | 0 => rowScan (fun x => pix x 0) (fun _ => 0) false w
  | y + 1 =>
      let prev := preRow pix w y
      rowScan (fun x => pix x (y + 1)) (fun x => prev.getD x 0) true w

/-- Entry `precalc[x + y*width]` after the precomputation step. -/
def precalcAt (pix : ℕ → ℕ → ℕ) (w x y : ℕ) : ℕ := (preRow pix w y).getD x 0

/-- Line 760: `int l = x < radius ? 0 : x - radius;`. -/
def cornerL (er x : ℕ) : ℕ := if x < er then 0 else x - er

/-- Line 761: `int t = y < radius ? 0 : y - radius;`. -/
def cornerT (er y : ℕ) : ℕ := if y < er then 0 else y - er

/-- Line 762: `int r = x + radius >= width ? width - 1 : x + radius;`. -/
def cornerR (w er x : ℕ) : ℕ := if w ≤ x + er then w - 1 else x + er

/-- Line 763: `int b = y + radius >= height ? height - 1 : y + radius;`. -/
def cornerB (h er y : ℕ) : ℕ := if h ≤ y + er then h - 1 else y + er

/-- Lines 764-765: `precalc[r+b*width] + precalc[l+t*width] -
precalc[l+b*width] - precalc[r+t*width]`, evaluated in `unsigned`
arithmetic, i.e. modulo `2^32`. -/
def totU (pix : ℕ → ℕ → ℕ) (w h er x y : ℕ) : ℕ :=
  wrap32 ((precalcAt pix w (cornerR w er x) (cornerB h er y) : ℤ)
    + (precalcAt pix w (cornerL er x) (cornerT er y) : ℤ)
    - (precalcAt pix w (cornerL er x) (cornerB h er y) : ℤ)
    - (precalcAt pix w (cornerR w er x) (cornerT er y) : ℤ))

/-- Round-to-nearest, ties-to-even, of the exact quotient `a / b`
(IEEE-754 rounding of a positive quotient at the scale of `1`). -/
def rneDiv (a b : ℕ) : ℕ :=
  if b < 2 * (a % b) then a / b + 1
  else if 2 * (a % b) < b then a / b
  else if a / b % 2 = 0 then a / b else a / b + 1

/-- Fuel-driven binary logarithm, `⌊log₂ n⌋` for `n ≥ 1`; the structural
fuel keeps it kernel-reducible on literals. -/
def lg2Aux : ℕ → ℕ → ℕ
  | 0, _ => 0
  | fuel + 1, n => if 2 ≤ n then lg2Aux fuel (n / 2) + 1 else 0

/-- Binary logarithm: `lg2 n = ⌊log₂ n⌋` for `n ≥ 1`, and `lg2 0 = 0`. -/
def lg2 (n : ℕ) : ℕ := lg2Aux n n

/-- Line 766 `*pix = (unsigned char)(tot * mul);` with line 728
`double mul = 1.f/((radius*2)*(radius*2));`, over IEEE-754 exactly:

* `n = (radius*2)*(radius*2)` in `int`;
* `mul` is `1/n` correctly rounded at 24 significand bits: writing
  `2^e ≤ 1/n < 2^(e+1)` (so `e = -lg2 n` if `n` is a power of two and
  `e = -(lg2 n + 1)` otherwise), `mul = m / 2^s` with `s = 23 - e` and
  `m = rneDiv (2^s) n` (exact while `n < 2^24`, see the file header);
* `p = tot * m` so that `tot * mul = p / 2^s` exactly; binary64 keeps
  53 significand bits, so if `|p|` has more than 53 bits the product is
  rounded: shift right by `k = lg2 |p| - 52` with ties-to-even;
* the `(unsigned char)` cast truncates toward zero and keeps the low
  byte; for `er = 0` the C expression is `0 * (1.f/0) = NaN` and the
  stored byte is `0` on x86-64/AArch64 (undefined behaviour in ISO C,
  fixed to `0` in this model). -/
def passByte (er : ℕ) (tot : ℤ) : ℕ :=
  if er = 0 then 0
  else
    let n := er * 2 * (er * 2)
    let s := if 2 ^ lg2 n = n then 23 + lg2 n else 24 + lg2 n
    let m := rneDiv (2 ^ s) n
    let p := tot * (m : ℤ)
    let k := lg2 p.natAbs - 52
    let p2 : ℤ := if k = 0 then p else p.sign * (rneDiv p.natAbs (2 ^ k) : ℤ)
    let t : ℤ := (p2.natAbs / 2 ^ (s - k) : ℕ) * p2.sign
    (t % 256).toNat

/-- Loop bounds of the blur step (lines 758-759): pixel `(x,y)` is
rewritten exactly when this holds (`er` is the already decremented
radius; with `int` arithmetic a negative bound gives an empty loop,
matching truncated subtraction on `ℕ`). -/
def inInset (w h er x y : ℕ) : Prop :=
  er ≤ x ∧ x < w - er ∧ er ≤ y ∧ y < h - er

instance inInset.dec (w h er x y : ℕ) : Decidable (inInset w h er x y) := by
  unfold inInset; infer_instance

/-- One channel pass (lines 740-770): the prefix-sum table is rebuilt
from the channel plane, then every inset pixel is rewritten from the
table; all other pixels keep their value.  Maps the plane at the start
of the pass to the plane after it. -/
def passPlane (w h er : ℕ) (pix : ℕ → ℕ → ℕ) : ℕ → ℕ → ℕ :=
  fun x y =>
    if inInset w h er x y then passByte er (totIOf (totU pix w h er x y)) else pix x y

/-- Channel-plane view of the packed buffer: byte `4*(y*w+x)+c`
(the code's `pix = src + ... + channel`, stride `width*4`). -/
def plane (w c : ℕ) (src : ℕ → ℕ) : ℕ → ℕ → ℕ :=
  fun x y => src (4 * (y * w + x) + c)

/-- One (iteration, channel) pass at whole-buffer level: bytes of
channel `c` whose pixel is in the inset are rewritten, every other
byte is untouched. -/
def passBuf (w h er c : ℕ) (src : ℕ → ℕ) : ℕ → ℕ :=
  fun o =>
    if o % 4 = c ∧ inInset w h er (o / 4 % w) (o / 4 / w) then
      passByte er (totIOf (totU (plane w c src) w h er (o / 4 % w) (o / 4 / w)))
    else src o

/-- One full iteration (line 737): channels 0,1,2,3 in order, each
channel's two sub-passes complete before the next channel starts. -/
def iterBuf (w h er : ℕ) (src : ℕ → ℕ) : ℕ → ℕ :=
  passBuf w h er 3 (passBuf w h er 2 (passBuf w h er 1 (passBuf w h er 0 src)))

/-- Line 733: `const int MAX_ITERATIONS = 3;`. -/
def MAX_ITERATIONS : ℕ := 3

/-- The whole call (lines 714-776): `--radius`, then `MAX_ITERATIONS`
iterations over the four channels.  Callers pass `radius ≥ 1`
(for `radius = 0` the C code indexes out of bounds, undefined
behaviour outside every claim considered here). -/
def surface_blur (w h radius : ℕ) (src : ℕ → ℕ) : ℕ → ℕ :=
  (iterBuf w h (radius - 1))^[MAX_ITERATIONS] src

/-- Column sum `∑_{j ≤ y} pix i j` of a channel plane. -/
def colS (pix : ℕ → ℕ → ℕ) (i y : ℕ) : ℕ := ∑ j ∈ Finset.range (y + 1), pix i j

/-- The true (unwrapped) inclusive 2D prefix sum the spec describes:
`S x y = ∑_{i ≤ x} ∑_{j ≤ y} pix i j`. -/
def mathS (pix : ℕ → ℕ → ℕ) (x y : ℕ) : ℕ := ∑ i ∈ Finset.range (x + 1), colS pix i y

/-- Sum of the channel bytes over the half-open window `(l,r] × (t,b]`. -/
def boxSum (pix : ℕ → ℕ → ℕ) (l t r b : ℕ) : ℕ :=
  ∑ i ∈ Finset.Ico (l + 1) (r + 1), ∑ j ∈ Finset.Ico (t + 1) (b + 1), pix i j

/-- One blur pass in the spec's wording: effective radius `radius - 1`
throughout, window corners `l = max(0, x-er)` and `t = max(0, y-er)`
(truncated ℕ subtraction is exactly that clamp), `r = min(width-1, x+er)`,
`b = min(height-1, y+er)`, four-corner combination of the accumulator,
then the float multiply-and-truncate. -/
def specPassPlane (w h radius : ℕ) (pix : ℕ → ℕ → ℕ) : ℕ → ℕ → ℕ :=
  fun x y =>
    if inInset w h (radius - 1) x y then
      passByte (radius - 1) (totIOf (wrap32
        ((precalcAt pix w (min (w - 1) (x + (radius - 1))) (min (h - 1) (y + (radius - 1))) : ℤ)
          + (precalcAt pix w (x - (radius - 1)) (y - (radius - 1)) : ℤ)
          - (precalcAt pix w (x - (radius - 1)) (min (h - 1) (y + (radius - 1))) : ℤ)
          - (precalcAt pix w (min (w - 1) (x + (radius - 1))) (y - (radius - 1)) : ℤ))))
    else pix x y

/-- Claim C1's literal per-pixel value: truncate `mul * T` with the
EXACT rational `mul = 1/((2*er)^2)` — for the nonnegative `T` of
interest that is floor division — taken as a byte. -/
def exactByte (er : ℕ) (tot : ℤ) : ℕ := tot.toNat / (er * 2 * (er * 2)) % 256

theorem getD_append_lt (l l' : List ℕ) (i : ℕ) (h : i < l.length) :
    (l ++ l').getD i 0 = l.getD i 0 := by
  induction l generalizing i with
  | nil => simp at h
  | cons a t ih =>
    cases i with
    | zero => rfl
    | succ j => simpa using ih j (by simpa using h)

theorem getD_concat (l : List ℕ) (a : ℕ) : (l ++ [a]).getD l.length 0 = a := by
  induction l with
  | nil => rfl
  | cons b t ih => simp [ih]

theorem rowScan_length (p q : ℕ → ℕ) (b : Bool) (n : ℕ) :
    (rowScan p q b n).length = n := by
  induction n with
  | zero => rfl
  | succ m ih => simp [rowScan, ih]

theorem rowScan_succ (p q : ℕ → ℕ) (b : Bool) (n : ℕ) :
    rowScan p q b (n + 1) = rowScan p q b n ++ [wrap32 ((p n : ℤ)
      + (if 0 < n then ((rowScan p q b n).getD (n - 1) 0 : ℤ) else 0)
      + (if b then (q n : ℤ) else 0)
      - (if 0 < n ∧ b then (q (n - 1) : ℤ) else 0))] := rfl

theorem rowScan_getD_stable (p q : ℕ → ℕ) (b : Bool) :
    ∀ n m i : ℕ, i < m → m ≤ n →
      (rowScan p q b n).getD i 0 = (rowScan p q b m).getD i 0 := by
  intro n
  induction n with
  | zero => intro m i him hmn; interval_cases m; omega
  | succ n' ih =>
    intro m i him hmn
    rcases Nat.eq_or_lt_of_le hmn with hEq | hlt
    · rw [hEq]
    · have hm : m ≤ n' := by omega
      rw [rowScan_succ, getD_append_lt _ _ i (by rw [rowScan_length]; omega)]
      exact ih m i him hm

theorem rowScan_cell (p q : ℕ → ℕ) (b : Bool) (n x : ℕ) (h : x < n) :
    (rowScan p q b n).getD x 0 = wrap32 ((p x : ℤ)
      + (if 0 < x then ((rowScan p q b n).getD (x - 1) 0 : ℤ) else 0)
      + (if b then (q x : ℤ) else 0)
      - (if 0 < x ∧ b then (q (x - 1) : ℤ) else 0)) := by
  have hstep : (rowScan p q b n).getD x 0 = (rowScan p q b (x + 1)).getD x 0 :=
    rowScan_getD_stable p q b n (x + 1) x (Nat.lt_succ_self x) h
  have hconcat := getD_concat (rowScan p q b x) (wrap32 ((p x : ℤ)
      + (if 0 < x then ((rowScan p q b x).getD (x - 1) 0 : ℤ) else 0)
      + (if b then (q x : ℤ) else 0)
      - (if 0 < x ∧ b then (q (x - 1) : ℤ) else 0)))
  rw [rowScan_length] at hconcat
  rw [hstep, rowScan_succ, hconcat]
  by_cases h0 : 0 < x
  · rw [if_pos h0, if_pos h0,
      rowScan_getD_stable p q b n x (x - 1) (by omega) (by omega)]
  · simp [h0]

theorem preRow_succ (pix : ℕ → ℕ → ℕ) (w y : ℕ) :
    preRow pix w (y + 1) =
      rowScan (fun a => pix a (y + 1)) (fun a => (preRow pix w y).getD a 0) true w := rfl

/-- The accumulator satisfies the inclusion-exclusion recurrence of
cairo.cpp 747-751, modulo `2^32`. -/
theorem precalcAt_rec (pix : ℕ → ℕ → ℕ) (w x y : ℕ) (hx : x < w) :
    precalcAt pix w x y = wrap32 ((pix x y : ℤ)
      + (if 0 < x then (precalcAt pix w (x - 1) y : ℤ) else 0)
      + (if 0 < y then (precalcAt pix w x (y - 1) : ℤ) else 0)
      - (if 0 < x ∧ 0 < y then (precalcAt pix w (x - 1) (y - 1) : ℤ) else 0)) := by
  cases y with
  | zero =>
    show (rowScan (fun a => pix a 0) (fun _ => 0) false w).getD x 0 = _
    rw [rowScan_cell _ _ _ w x hx]
    simp [precalcAt, preRow]
  | succ y' =>
    show (rowScan (fun a => pix a (y' + 1)) (fun a => (preRow pix w y').getD a 0) true w).getD x 0 = _
    rw [rowScan_cell _ _ _ w x hx]
    simp [precalcAt, preRow_succ]

theorem inInset_iff (w h er x y : ℕ) :
    inInset w h er x y ↔ (er ≤ x ∧ x < w - er ∧ er ≤ y ∧ y < h - er) := Iff.rfl

theorem colS_zero (pix : ℕ → ℕ → ℕ) (i : ℕ) : colS pix i 0 = pix i 0 := by
  unfold colS; exact Finset.sum_range_one _

theorem colS_succ (pix : ℕ → ℕ → ℕ) (i y : ℕ) :
    colS pix i (y + 1) = colS pix i y + pix i (y + 1) :=
  Finset.sum_range_succ _ _

theorem mathS_succ_x (pix : ℕ → ℕ → ℕ) (x y : ℕ) :
    mathS pix (x + 1) y = mathS pix x y + colS pix (x + 1) y :=
  Finset.sum_range_succ _ _

theorem mathS_zero_x (pix : ℕ → ℕ → ℕ) (y : ℕ) : mathS pix 0 y = colS pix 0 y := by
  unfold mathS; exact Finset.sum_range_one _

theorem mathS_zero_zero (pix : ℕ → ℕ → ℕ) : mathS pix 0 0 = pix 0 0 := by
  rw [mathS_zero_x, colS_zero]

theorem mathS_succ_zero (pix : ℕ → ℕ → ℕ) (x : ℕ) :
    mathS pix (x + 1) 0 = mathS pix x 0 + pix (x + 1) 0 := by
  rw [mathS_succ_x, colS_zero]

theorem mathS_zero_succ (pix : ℕ → ℕ → ℕ) (y : ℕ) :
    mathS pix 0 (y + 1) = mathS pix 0 y + pix 0 (y + 1) := by
  rw [mathS_zero_x, mathS_zero_x, colS_succ]

/-- Inclusion-exclusion for the true prefix sum, in subtraction-free form. -/
theorem mathS_rec (pix : ℕ → ℕ → ℕ) (x y : ℕ) :
    mathS pix (x + 1) (y + 1) + mathS pix x y =
      pix (x + 1) (y + 1) + mathS pix x (y + 1) + mathS pix (x + 1) y := by
  have h1 := mathS_succ_x pix x (y + 1)
  have h2 := mathS_succ_x pix x y
  have h3 := colS_succ pix (x + 1) y
  omega

/-- Main accumulator lemma: every `precalc` cell is the true 2D prefix
sum reduced modulo `2^32`. -/
theorem precalc_eq_mathS (pix : ℕ → ℕ → ℕ) (w : ℕ) :
    ∀ y x, x < w → precalcAt pix w x y = mathS pix x y % W32 := by
  intro y
  induction y with
  | zero =>
    intro x
    induction x with
    | zero =>
      intro hx
      rw [precalcAt_rec pix w 0 0 hx]
      have h0 := mathS_zero_zero pix
      simp only [Nat.lt_irrefl, if_false, and_false, false_and, add_zero, sub_zero,
        lt_self_iff_false]
      simp only [wrap32, W32] at *
      omega
    | succ x' ihx =>
      intro hx
      have hx' : x' < w := by omega
      rw [precalcAt_rec pix w (x' + 1) 0 hx]
      have hI := ihx hx'
      have hm := mathS_succ_zero pix x'
      simp only [Nat.zero_lt_succ, if_true, Nat.lt_irrefl, lt_self_iff_false, if_false,
        and_false, Nat.add_sub_cancel, add_zero, sub_zero]
      simp only [wrap32, W32] at *
      omega
  | succ y' ihy =>
    intro x
    induction x with
    | zero =>
      intro hx
      rw [precalcAt_rec pix w 0 (y' + 1) hx]
      have hI := ihy 0 hx
      have hm := mathS_zero_succ pix y'
      simp only [Nat.zero_lt_succ, if_true, Nat.lt_irrefl, lt_self_iff_false, if_false,
        false_and, Nat.add_sub_cancel, add_zero, sub_zero, zero_add]
      simp only [wrap32, W32] at *
      omega
    | succ x' ihx =>
      intro hx
      have hx' : x' < w := by omega
      rw [precalcAt_rec pix w (x' + 1) (y' + 1) hx]
      have hA := ihx hx'
      have hB := ihy (x' + 1) hx
      have hC := ihy x' hx'
      have hm := mathS_rec pix x' y'
      simp only [Nat.zero_lt_succ, if_true, and_self, Nat.add_sub_cancel]
      simp only [wrap32, W32] at *
      omega

theorem mathS_split_x (pix : ℕ → ℕ → ℕ) (l r y : ℕ) (h : l ≤ r) :
    mathS pix r y = mathS pix l y + ∑ i ∈ Finset.Ico (l + 1) (r + 1), colS pix i y := by
  unfold mathS
  rw [Finset.range_eq_Ico]
  exact (Finset.sum_Ico_consecutive (fun i => colS pix i y) (Nat.zero_le (l + 1))
    (by omega : l + 1 ≤ r + 1)).symm

theorem colS_split (pix : ℕ → ℕ → ℕ) (i t b : ℕ) (h : t ≤ b) :
    colS pix i b = colS pix i t + ∑ j ∈ Finset.Ico (t + 1) (b + 1), pix i j := by
  unfold colS
  rw [Finset.range_eq_Ico]
  exact (Finset.sum_Ico_consecutive (fun j => pix i j) (Nat.zero_le (t + 1))
    (by omega : t + 1 ≤ b + 1)).symm

/-- The standard 2D range-sum-from-prefix-sum identity, subtraction free. -/
theorem mathS_box (pix : ℕ → ℕ → ℕ) (l t r b : ℕ) (hlr : l ≤ r) (htb : t ≤ b) :
    mathS pix r b + mathS pix l t =
      mathS pix l b + mathS pix r t + boxSum pix l t r b := by
  have h1 := mathS_split_x pix l r b hlr
  have h2 := mathS_split_x pix l r t hlr
  have h3 : ∑ i ∈ Finset.Ico (l + 1) (r + 1), colS pix i b
      = (∑ i ∈ Finset.Ico (l + 1) (r + 1), colS pix i t) + boxSum pix l t r b := by
    unfold boxSum
    rw [← Finset.sum_add_distrib]
    exact Finset.sum_congr rfl (fun i _ => colS_split pix i t b htb)
  omega

theorem cornerL_eq (er x : ℕ) : cornerL er x = x - er := by
  unfold cornerL; split <;> omega

theorem cornerT_eq (er y : ℕ) : cornerT er y = y - er := by
  unfold cornerT; split <;> omega

theorem cornerR_eq_min (w er x : ℕ) : cornerR w er x = min (w - 1) (x + er) := by
  unfold cornerR; split <;> omega

theorem cornerB_eq_min (h er y : ℕ) : cornerB h er y = min (h - 1) (y + er) := by
  unfold cornerB; split <;> omega

/-- For a pixel the blur loop actually visits, none of the four clamps fires. -/
theorem corners_open (w h er x y : ℕ) (hin : inInset w h er x y) :
    cornerL er x = x - er ∧ cornerT er y = y - er ∧
    cornerR w er x = x + er ∧ cornerB h er y = y + er := by
  rw [inInset_iff] at hin
  unfold cornerL cornerT cornerR cornerB
  refine ⟨?_, ?_, ?_, ?_⟩ <;> (split <;> omega)

/-- The `unsigned` four-corner combination recovers the window sum modulo `2^32`. -/
theorem totU_eq_box (pix : ℕ → ℕ → ℕ) (w h er x y : ℕ) (hin : inInset w h er x y) :
    totU pix w h er x y =
      boxSum pix (cornerL er x) (cornerT er y) (cornerR w er x) (cornerB h er y) % W32 := by
  have hin' := hin
  rw [inInset_iff] at hin'
  have hLR : cornerL er x ≤ cornerR w er x := by
    unfold cornerL cornerR; split <;> split <;> omega
  have hTB : cornerT er y ≤ cornerB h er y := by
    unfold cornerT cornerB; split <;> split <;> omega
  have hRw : cornerR w er x < w := by unfold cornerR; split <;> omega
  have hBh : cornerB h er y < h := by unfold cornerB; split <;> omega
  have hLw : cornerL er x < w := by omega
  unfold totU
  rw [precalc_eq_mathS pix w (cornerB h er y) (cornerR w er x) hRw,
    precalc_eq_mathS pix w (cornerT er y) (cornerL er x) hLw,
    precalc_eq_mathS pix w (cornerB h er y) (cornerL er x) hLw,
    precalc_eq_mathS pix w (cornerT er y) (cornerR w er x) hRw]
  have hbox := mathS_box pix (cornerL er x) (cornerT er y) (cornerR w er x)
    (cornerB h er y) hLR hTB
  simp only [wrap32, W32] at *
  omega

/-- Bound on a window sum from a byte bound on the plane. -/
theorem boxSum_le (pix : ℕ → ℕ → ℕ) (l t r b w h : ℕ) (hr : r < w) (hb : b < h)
    (hpix : ∀ i j, i < w → j < h → pix i j ≤ 255) :
    boxSum pix l t r b ≤ (r - l) * ((b - t) * 255) := by
  unfold boxSum
  have hinner : ∀ i ∈ Finset.Ico (l + 1) (r + 1),
      ∑ j ∈ Finset.Ico (t + 1) (b + 1), pix i j ≤ (b - t) * 255 := by
    intro i hi
    have hi' := Finset.mem_Ico.mp hi
    have hcard : (Finset.Ico (t + 1) (b + 1)).card = b - t := by
      rw [Nat.card_Ico]; omega
    calc ∑ j ∈ Finset.Ico (t + 1) (b + 1), pix i j
        ≤ (Finset.Ico (t + 1) (b + 1)).card • 255 := by
          refine Finset.sum_le_card_nsmul _ _ _ ?_
          intro j hj
          have hj' := Finset.mem_Ico.mp hj
          exact hpix i j (by omega) (by omega)
      _ = (b - t) * 255 := by rw [hcard, smul_eq_mul]
  calc ∑ i ∈ Finset.Ico (l + 1) (r + 1), ∑ j ∈ Finset.Ico (t + 1) (b + 1), pix i j
      ≤ (Finset.Ico (l + 1) (r + 1)).card • ((b - t) * 255) :=
        Finset.sum_le_card_nsmul _ _ _ hinner
    _ = (r - l) * ((b - t) * 255) := by
        rw [Nat.card_Ico, smul_eq_mul]
        congr 1
        omega

/-- When the window sum stays below `2^31`, the `int tot` of line 764 is
exactly the true window sum. -/
theorem totIOf_box (pix : ℕ → ℕ → ℕ) (w h er x y : ℕ) (hin : inInset w h er x y)
    (hsmall : boxSum pix (cornerL er x) (cornerT er y) (cornerR w er x) (cornerB h er y)
      < HALF32) :
    totIOf (totU pix w h er x y) =
      (boxSum pix (cornerL er x) (cornerT er y) (cornerR w er x) (cornerB h er y) : ℤ) := by
  rw [totU_eq_box pix w h er x y hin]
  have hW : boxSum pix (cornerL er x) (cornerT er y) (cornerR w er x) (cornerB h er y) % W32
      = boxSum pix (cornerL er x) (cornerT er y) (cornerR w er x) (cornerB h er y) := by
    apply Nat.mod_eq_of_lt
    unfold HALF32 at hsmall; unfold W32; omega
  rw [hW]
  unfold totIOf
  rw [if_pos hsmall]

theorem offset_lt (a b2 c w h : ℕ) (ha : a < w) (hb : b2 < h) (hc : c < 4) :
    4 * (b2 * w + a) + c < 4 * (w * h) := by
  have h1 : b2 * w + a < h * w := by
    calc b2 * w + a < b2 * w + w := by omega
      _ = (b2 + 1) * w := by ring
      _ ≤ h * w := Nat.mul_le_mul_right w (by omega)
  have h2 : h * w = w * h := Nat.mul_comm h w
  omega

theorem decode_mod4 (x y c w : ℕ) (hc : c < 4) : (4 * (y * w + x) + c) % 4 = c := by
  omega

theorem decode_div4 (x y c w : ℕ) (hc : c < 4) : (4 * (y * w + x) + c) / 4 = y * w + x := by
  omega

theorem decode_x (x y w : ℕ) (hx : x < w) : (y * w + x) % w = x := by
  rw [Nat.add_comm, Nat.add_mul_mod_self_right]
  exact Nat.mod_eq_of_lt hx

theorem decode_y (x y w : ℕ) (hx : x < w) : (y * w + x) / w = y := by
  rw [Nat.add_comm, Nat.add_mul_div_right x y (by omega : 0 < w),
    Nat.div_eq_of_lt hx, Nat.zero_add]

/-- A buffer-level pass on channel `c`, viewed through the plane of the
same channel, is exactly the plane-level pass. -/
theorem plane_passBuf_same (w h er c : ℕ) (src : ℕ → ℕ) (x y : ℕ) (hc : c < 4)
    (hx : x < w) :
    plane w c (passBuf w h er c src) x y = passPlane w h er (plane w c src) x y := by
  unfold plane passBuf passPlane
  rw [decode_mod4 x y c w hc, decode_div4 x y c w hc, decode_x x y w hx, decode_y x y w hx]
  simp
  rfl

/-- A buffer-level pass on another channel does not touch the plane of
channel `c` (channel independence). -/
theorem plane_passBuf_other (w h er c c2 : ℕ) (src : ℕ → ℕ) (hc : c < 4) (hc2 : c2 < 4)
    (hne : c ≠ c2) : plane w c (passBuf w h er c2 src) = plane w c src := by
  funext x y
  unfold plane passBuf
  have hno : ¬ ((4 * (y * w + x) + c) % 4 = c2 ∧
      inInset w h er ((4 * (y * w + x) + c) / 4 % w) ((4 * (y * w + x) + c) / 4 / w)) := by
    intro hand
    have h1 := hand.1
    omega
  rw [if_neg hno]

theorem rowScan_congr (p1 p2 q1 q2 : ℕ → ℕ) (b : Bool) (n : ℕ)
    (hp : ∀ i, i < n → p1 i = p2 i) (hq : ∀ i, i < n → q1 i = q2 i) :
    rowScan p1 q1 b n = rowScan p2 q2 b n := by
  induction n with
  | zero => rfl
  | succ m ih =>
    have hl : rowScan p1 q1 b m = rowScan p2 q2 b m :=
      ih (fun i hi => hp i (by omega)) (fun i hi => hq i (by omega))
    rw [rowScan_succ, rowScan_succ, hl, hp m (by omega), hq m (by omega),
      hq (m - 1) (by omega)]

theorem preRow_congr (pix1 pix2 : ℕ → ℕ → ℕ) (w : ℕ) :
    ∀ y, (∀ a b2, a < w → b2 ≤ y → pix1 a b2 = pix2 a b2) →
      preRow pix1 w y = preRow pix2 w y := by
  intro y
  induction y with
  | zero =>
    intro hag
    show rowScan (fun a => pix1 a 0) (fun _ => 0) false w
      = rowScan (fun a => pix2 a 0) (fun _ => 0) false w
    exact rowScan_congr _ _ _ _ false w (fun i hi => hag i 0 hi (le_refl 0))
      (fun _ _ => rfl)
  | succ y' ih =>
    intro hag
    have hprev := ih (fun a b2 ha hb => hag a b2 ha (by omega))
    show rowScan (fun a => pix1 a (y' + 1)) (fun a => (preRow pix1 w y').getD a 0) true w
      = rowScan (fun a => pix2 a (y' + 1)) (fun a => (preRow pix2 w y').getD a 0) true w
    rw [hprev]
    exact rowScan_congr _ _ _ _ true w (fun i hi => hag i (y' + 1) hi (le_refl _))
      (fun _ _ => rfl)

/-- The four-corner read only depends on the plane inside the image
rectangle. -/
theorem totU_congr (F G : ℕ → ℕ → ℕ) (w h er x y : ℕ) (hin : inInset w h er x y)
    (hag : ∀ a b2, a < w → b2 < h → F a b2 = G a b2) :
    totU F w h er x y = totU G w h er x y := by
  have hh : 1 ≤ h := by rw [inInset_iff] at hin; omega
  have hB : cornerB h er y < h := by unfold cornerB; split <;> omega
  have hT : cornerT er y < h := by
    rw [inInset_iff] at hin; unfold cornerT; split <;> omega
  have hrowB : preRow F w (cornerB h er y) = preRow G w (cornerB h er y) :=
    preRow_congr F G w _ (fun a b2 ha hb => hag a b2 ha (by omega))
  have hrowT : preRow F w (cornerT er y) = preRow G w (cornerT er y) :=
    preRow_congr F G w _ (fun a b2 ha hb => hag a b2 ha (by omega))
  unfold totU precalcAt
  rw [hrowB, hrowT]

theorem passPlane_congrW (F G : ℕ → ℕ → ℕ) (w h er : ℕ)
    (hag : ∀ a b2, a < w → F a b2 = G a b2) (x y : ℕ) (hx : x < w) :
    passPlane w h er F x y = passPlane w h er G x y := by
  unfold passPlane
  by_cases hin : inInset w h er x y
  · rw [if_pos hin, if_pos hin,
      totU_congr F G w h er x y hin (fun a b2 ha hb => hag a b2 ha)]
  · rw [if_neg hin, if_neg hin]
    exact hag x y hx

/-- One buffer iteration seen through one channel plane is one
plane-level pass (the other three channel passes are invisible). -/
theorem plane_iterBuf_one (w h er c : ℕ) (s : ℕ → ℕ) (x y : ℕ) (hc : c < 4) (hx : x < w) :
    plane w c (iterBuf w h er s) x y = passPlane w h er (plane w c s) x y := by
  unfold iterBuf
  interval_cases c
  · rw [plane_passBuf_other w h er 0 3 _ (by omega) (by omega) (by omega),
      plane_passBuf_other w h er 0 2 _ (by omega) (by omega) (by omega),
      plane_passBuf_other w h er 0 1 _ (by omega) (by omega) (by omega)]
    exact plane_passBuf_same w h er 0 s x y (by omega) hx
  · rw [plane_passBuf_other w h er 1 3 _ (by omega) (by omega) (by omega),
      plane_passBuf_other w h er 1 2 _ (by omega) (by omega) (by omega),
      plane_passBuf_same w h er 1 _ x y (by omega) hx,
      plane_passBuf_other w h er 1 0 s (by omega) (by omega) (by omega)]
  · rw [plane_passBuf_other w h er 2 3 _ (by omega) (by omega) (by omega),
      plane_passBuf_same w h er 2 _ x y (by omega) hx,
      plane_passBuf_other w h er 2 1 _ (by omega) (by omega) (by omega),
      plane_passBuf_other w h er 2 0 s (by omega) (by omega) (by omega)]
  · rw [plane_passBuf_same w h er 3 _ x y (by omega) hx,
      plane_passBuf_other w h er 3 2 _ (by omega) (by omega) (by omega),
      plane_passBuf_other w h er 3 1 _ (by omega) (by omega) (by omega),
      plane_passBuf_other w h er 3 0 s (by omega) (by omega) (by omega)]

/-- Iterating buffer-level blurs is iterating the plane-level pass,
channel by channel. -/
theorem plane_iterN (w h er c : ℕ) (s : ℕ → ℕ) (hc : c < 4) :
    ∀ n x y, x < w →
      plane w c ((iterBuf w h er)^[n] s) x y
        = (passPlane w h er)^[n] (plane w c s) x y := by
  intro n
  induction n with
  | zero => intro x y hx; rfl
  | succ n' ih =>
    intro x y hx
    rw [Function.iterate_succ_apply', Function.iterate_succ_apply',
      plane_iterBuf_one w h er c _ x y hc hx]
    exact passPlane_congrW _ _ w h er (fun a b2 ha => ih a b2 ha) x y hx

theorem passBuf_frame (w h er c : ℕ) (s : ℕ → ℕ) (o : ℕ)
    (hno : ¬ inInset w h er (o / 4 % w) (o / 4 / w)) : passBuf w h er c s o = s o := by
  unfold passBuf
  exact if_neg (fun hand => hno hand.2)

theorem iterBuf_frame (w h er : ℕ) (s : ℕ → ℕ) (o : ℕ)
    (hno : ¬ inInset w h er (o / 4 % w) (o / 4 / w)) : iterBuf w h er s o = s o := by
  unfold iterBuf
  rw [passBuf_frame w h er 3 _ o hno, passBuf_frame w h er 2 _ o hno,
    passBuf_frame w h er 1 _ o hno, passBuf_frame w h er 0 s o hno]

theorem iterN_frame (w h er : ℕ) (s : ℕ → ℕ) (o : ℕ)
    (hno : ¬ inInset w h er (o / 4 % w) (o / 4 / w)) :
    ∀ n, (iterBuf w h er)^[n] s o = s o := by
  intro n
  induction n with
  | zero => rfl
  | succ n' ih =>
    rw [Function.iterate_succ_apply', iterBuf_frame w h er _ o hno, ih]

/-- The spec-worded pass is the code's pass at effective radius
`radius - 1`. -/
theorem specPass_eq (w h radius : ℕ) (pix : ℕ → ℕ → ℕ) :
    specPassPlane w h radius pix = passPlane w h (radius - 1) pix := by
  funext x y
  unfold specPassPlane passPlane totU
  rw [show x - (radius - 1) = cornerL (radius - 1) x from (cornerL_eq _ _).symm,
    show y - (radius - 1) = cornerT (radius - 1) y from (cornerT_eq _ _).symm,
    show min (w - 1) (x + (radius - 1)) = cornerR w (radius - 1) x from
      (cornerR_eq_min _ _ _).symm,
    show min (h - 1) (y + (radius - 1)) = cornerB h (radius - 1) y from
      (cornerB_eq_min _ _ _).symm]

theorem mathS_const (k x y : ℕ) :
    mathS (fun _ _ => k) x y = (x + 1) * ((y + 1) * k) := by
  unfold mathS colS
  simp [Finset.sum_const, Finset.card_range, smul_eq_mul]

theorem boxSum_const (k l t r b : ℕ) :
    boxSum (fun _ _ => k) l t r b = (r - l) * ((b - t) * k) := by
  have h1 : r + 1 - (l + 1) = r - l := by omega
  have h2 : b + 1 - (t + 1) = b - t := by omega
  unfold boxSum
  simp [Finset.sum_const, Nat.card_Ico, smul_eq_mul, h1, h2]

/-- On the all-255 11×11 plane with er = 5 the centre pixel is written
`(unsigned char)(25500 * (1.f/100))`. -/
theorem uniform_center_byte :
    passPlane 11 11 5 (fun _ _ => 255) 5 5 = passByte 5 (25500 : ℤ) := by
  have hin : inInset 11 11 5 5 5 := by decide
  have hc1 : cornerL 5 5 = 0 := by decide
  have hc2 : cornerT 5 5 = 0 := by decide
  have hc3 : cornerR 11 5 5 = 10 := by decide
  have hc4 : cornerB 11 5 5 = 10 := by decide
  have hsmall : boxSum (fun _ _ : ℕ => (255 : ℕ)) (cornerL 5 5) (cornerT 5 5)
      (cornerR 11 5 5) (cornerB 11 5 5) < HALF32 := by
    rw [hc1, hc2, hc3, hc4, boxSum_const]
    unfold HALF32
    omega
  have htot := totIOf_box (fun _ _ => 255) 11 11 5 5 5 hin hsmall
  rw [hc1, hc2, hc3, hc4, boxSum_const] at htot
  norm_num at htot
  unfold passPlane
  rw [if_pos hin, htot]

/-- C1, corrected: the per-pixel value is the true window sum `T`
(recovered exactly from the mod-2^32 accumulator) pushed through the
code's float arithmetic `(unsigned char)(T * (1.f/(2*er)^2))` — not the
exact-rational truncation the claim states. -/
theorem blur_pass_value (pix : ℕ → ℕ → ℕ) (w h er x y : ℕ)
    (hpix : ∀ i j, i < w → j < h → pix i j ≤ 255)
    (her : 1 ≤ er) (hin : inInset w h er x y)
    (hsz : 255 * w * h < HALF32) :
    passPlane w h er pix x y
      = passByte er ((mathS pix (min (w - 1) (x + er)) (min (h - 1) (y + er)) : ℤ)
          + (mathS pix (x - er) (y - er) : ℤ)
          - (mathS pix (x - er) (min (h - 1) (y + er)) : ℤ)
          - (mathS pix (min (w - 1) (x + er)) (y - er) : ℤ)) := by
  have hin' := hin
  rw [inInset_iff] at hin'
  obtain ⟨hcl, hct, hcr, hcb⟩ := corners_open w h er x y hin
  have hRw : cornerR w er x < w := by rw [hcr]; omega
  have hBh : cornerB h er y < h := by rw [hcb]; omega
  have hle := boxSum_le pix (cornerL er x) (cornerT er y) (cornerR w er x)
    (cornerB h er y) w h hRw hBh hpix
  have hsmall : boxSum pix (cornerL er x) (cornerT er y) (cornerR w er x)
      (cornerB h er y) < HALF32 := by
    have h1 : cornerR w er x - cornerL er x ≤ w := by rw [hcr, hcl]; omega
    have h2 : cornerB h er y - cornerT er y ≤ h := by rw [hcb, hct]; omega
    have h3 : (cornerR w er x - cornerL er x) * ((cornerB h er y - cornerT er y) * 255)
        ≤ w * (h * 255) := Nat.mul_le_mul h1 (Nat.mul_le_mul h2 (le_refl 255))
    have h4 : w * (h * 255) = 255 * w * h := by ring
    omega
  have htot := totIOf_box pix w h er x y hin hsmall
  have hLR : cornerL er x ≤ cornerR w er x := by rw [hcl, hcr]; omega
  have hTB : cornerT er y ≤ cornerB h er y := by rw [hct, hcb]; omega
  have hbox := mathS_box pix (cornerL er x) (cornerT er y) (cornerR w er x)
    (cornerB h er y) hLR hTB
  unfold passPlane
  rw [if_pos hin, htot]
  congr 1
  rw [show min (w - 1) (x + er) = cornerR w er x from (cornerR_eq_min _ _ _).symm,
    show min (h - 1) (y + er) = cornerB h er y from (cornerB_eq_min _ _ _).symm,
    show x - er = cornerL er x from (cornerL_eq _ _).symm,
    show y - er = cornerT er y from (cornerT_eq _ _).symm]
  omega

theorem blur_pass_value_instance :
    passPlane 3 3 1 (fun i j => (i + 2 * j) % 16) 1 1
      = passByte 1
          ((mathS (fun i j => (i + 2 * j) % 16) (min (3 - 1) (1 + 1)) (min (3 - 1) (1 + 1)) : ℤ)
            + (mathS (fun i j => (i + 2 * j) % 16) (1 - 1) (1 - 1) : ℤ)
            - (mathS (fun i j => (i + 2 * j) % 16) (1 - 1) (min (3 - 1) (1 + 1)) : ℤ)
            - (mathS (fun i j => (i + 2 * j) % 16) (min (3 - 1) (1 + 1)) (1 - 1) : ℤ)) :=
  blur_pass_value (fun i j => (i + 2 * j) % 16) 3 3 1 1 1
    (by intro i j hi hj; show (i + 2 * j) % 16 ≤ 255; omega) (by decide)
    (by decide) (by decide)

/-- C1 as frozen is false on the code: radius 6 (er = 5, divisor 100),
uniform 255 11×11 plane, centre pixel: the float path gives 254, the
exact `mul * T` truncation gives 255. -/
theorem blur_exact_mul_refuted :
    passPlane 11 11 5 (fun _ _ => 255) 5 5
      ≠ exactByte 5
          ((mathS (fun _ _ => 255) (min (11 - 1) (5 + 5)) (min (11 - 1) (5 + 5)) : ℤ)
            + (mathS (fun _ _ => 255) (5 - 5) (5 - 5) : ℤ)
            - (mathS (fun _ _ => 255) (5 - 5) (min (11 - 1) (5 + 5)) : ℤ)
            - (mathS (fun _ _ => 255) (min (11 - 1) (5 + 5)) (5 - 5) : ℤ)) := by
  rw [uniform_center_byte]
  simp only [mathS_const]
  decide

/-- C2: for radius 1 the call is NOT a no-op — er = 0 makes the inset
the whole image and every byte is overwritten with the modelled
`(unsigned char)(0 * (1.f/0))` cast, byte 0: an all-255 buffer does not
come back with byte 255 at offset 0. -/
theorem radius_one_not_noop :
    surface_blur 3 3 1 (fun _ => 255) 0 ≠ 255 := by decide

/-- C3: for radius ≥ 2, every byte of a pixel outside the inset is
untouched by the whole call, and when the inset is empty the entire
buffer is untouched. -/
theorem border_and_empty_inset_unchanged (src : ℕ → ℕ) (w h radius x y c o : ℕ)
    (hr : 2 ≤ radius) :
    ((x < w → y < h → c < 4 →
        (x < radius - 1 ∨ w - (radius - 1) ≤ x ∨ y < radius - 1 ∨ h - (radius - 1) ≤ y) →
        surface_blur w h radius src (4 * (y * w + x) + c) = src (4 * (y * w + x) + c))
      ∧ ((w - (radius - 1) ≤ radius - 1 ∨ h - (radius - 1) ≤ radius - 1) →
          surface_blur w h radius src o = src o)) := by
  constructor
  · intro hx hy hc hout
    unfold surface_blur
    apply iterN_frame
    rw [decode_div4 x y c w hc, decode_x x y w hx, decode_y x y w hx, inInset_iff]
    omega
  · intro hempty
    unfold surface_blur
    apply iterN_frame
    rw [inInset_iff]
    omega

theorem border_and_empty_inset_unchanged_instance :
    surface_blur 3 3 2 (fun o => o % 7) (4 * (0 * 3 + 0) + 0)
      = (fun o => o % 7) (4 * (0 * 3 + 0) + 0) :=
  (border_and_empty_inset_unchanged (fun o => o % 7) 3 3 2 0 0 0 0 (by decide)).1
    (by decide) (by decide) (by decide) (by decide)

/-- C4: the call is exactly three iterations; through any single channel
it is the 3-fold iterate of that channel's pass — channels are processed
independently and strictly in order within each iteration, and every
write of iteration N is read by the prefix sums of iteration N+1. -/
theorem three_sequential_iterations (src : ℕ → ℕ) (w h er c x y : ℕ)
    (hc : c < 4) (hx : x < w) :
    plane w c (surface_blur w h (er + 1) src) x y
      = (passPlane w h er)^[3] (plane w c src) x y := by
  unfold surface_blur MAX_ITERATIONS
  rw [Nat.add_sub_cancel]
  exact plane_iterN w h er c src hc 3 x y hx

theorem three_sequential_iterations_instance :
    plane 3 0 (surface_blur 3 3 2 (fun o => o % 9)) 1 0
      = (passPlane 3 3 1)^[3] (plane 3 0 (fun o => o % 9)) 1 0 :=
  three_sequential_iterations (fun o => o % 9) 3 3 1 0 1 0 (by decide) (by decide)

/-- C5: the whole call equals three iterations of the spec-worded pass,
whose inset bounds, window corners and divisor are all built from
`radius - 1`, not from the supplied radius. -/
theorem effective_radius_is_radius_minus_one (src : ℕ → ℕ) (w h radius c x y : ℕ)
    (_hr : 1 ≤ radius) (hc : c < 4) (hx : x < w) :
    plane w c (surface_blur w h radius src) x y
      = (specPassPlane w h radius)^[MAX_ITERATIONS] (plane w c src) x y := by
  have hfun : specPassPlane w h radius = passPlane w h (radius - 1) :=
    funext (fun pix => specPass_eq w h radius pix)
  rw [hfun]
  unfold surface_blur
  exact plane_iterN w h (radius - 1) c src hc MAX_ITERATIONS x y hx

theorem effective_radius_is_radius_minus_one_instance :
    plane 3 1 (surface_blur 3 3 2 (fun o => o % 5)) 1 1
      = (specPassPlane 3 3 2)^[MAX_ITERATIONS] (plane 3 1 (fun o => o % 5)) 1 1 :=
  effective_radius_is_radius_minus_one (fun o => o % 5) 3 3 2 1 1 1 (by decide)
    (by decide) (by decide)

theorem idx_lt (a b2 w h : ℕ) (ha : a < w) (hb : b2 < h) : b2 * w + a < w * h := by
  have h1 : b2 * w + a < (b2 + 1) * w := by
    have : (b2 + 1) * w = b2 * w + w := by ring
    omega
  have h2 : (b2 + 1) * w ≤ h * w := Nat.mul_le_mul_right w (by omega)
  have h3 : h * w = w * h := Nat.mul_comm h w
  omega

/-- C6: every pixel offset the prefix pass touches, every accumulator
index it writes or relatively reads, every accumulator corner the blur
pass reads, and every byte it writes, is in range. -/
theorem accesses_in_bounds (w h er x y c : ℕ) (hw : 1 ≤ w) (hh : 1 ≤ h) :
    ((x < w → y < h → c < 4 →
        y * w + x < w * h
        ∧ 4 * (y * w + x) + c < 4 * (w * h)
        ∧ (0 < x → 1 ≤ y * w + x)
        ∧ (0 < y → w ≤ y * w + x)
        ∧ (0 < x → 0 < y → w + 1 ≤ y * w + x))
      ∧ (inInset w h er x y → c < 4 →
          cornerR w er x + cornerB h er y * w < w * h
          ∧ cornerL er x + cornerT er y * w < w * h
          ∧ cornerL er x + cornerB h er y * w < w * h
          ∧ cornerR w er x + cornerT er y * w < w * h
          ∧ 4 * (y * w + x) + c < 4 * (w * h))) := by
  constructor
  · intro hx hy hc
    have h1 := idx_lt x y w h hx hy
    have h2 := offset_lt x y c w h hx hy hc
    have h3 : 0 < y → w ≤ y * w + x := by
      intro hy0
      have := Nat.mul_le_mul_right w (show 1 ≤ y by omega)
      omega
    have h4 : 0 < x → 0 < y → w + 1 ≤ y * w + x := by
      intro hx0 hy0
      have := Nat.mul_le_mul_right w (show 1 ≤ y by omega)
      omega
    exact ⟨h1, h2, by omega, h3, h4⟩
  · intro hin hc
    have hin' := hin
    rw [inInset_iff] at hin'
    have hRw : cornerR w er x < w := by unfold cornerR; split <;> omega
    have hBh : cornerB h er y < h := by unfold cornerB; split <;> omega
    have hLw : cornerL er x < w := by rw [cornerL_eq]; omega
    have hTh : cornerT er y < h := by rw [cornerT_eq]; omega
    have i1 := idx_lt (cornerR w er x) (cornerB h er y) w h hRw hBh
    have i2 := idx_lt (cornerL er x) (cornerT er y) w h hLw hTh
    have i3 := idx_lt (cornerL er x) (cornerB h er y) w h hLw hBh
    have i4 := idx_lt (cornerR w er x) (cornerT er y) w h hRw hTh
    have i5 := offset_lt x y c w h (by omega) (by omega) hc
    exact ⟨by omega, by omega, by omega, by omega, i5⟩

theorem accesses_in_bounds_instance :
    (1 * 3 + 1 < 3 * 3
      ∧ 4 * (1 * 3 + 1) + 2 < 4 * (3 * 3)
      ∧ (0 < 1 → 1 ≤ 1 * 3 + 1)
      ∧ (0 < 1 → 3 ≤ 1 * 3 + 1)
      ∧ (0 < 1 → 0 < 1 → 3 + 1 ≤ 1 * 3 + 1))
    ∧ (cornerR 3 1 1 + cornerB 3 1 1 * 3 < 3 * 3
      ∧ cornerL 1 1 + cornerT 1 1 * 3 < 3 * 3
      ∧ cornerL 1 1 + cornerB 3 1 1 * 3 < 3 * 3
      ∧ cornerR 3 1 1 + cornerT 1 1 * 3 < 3 * 3
      ∧ 4 * (1 * 3 + 1) + 2 < 4 * (3 * 3)) :=
  ⟨(accesses_in_bounds 3 3 1 1 1 2 (by decide) (by decide)).1 (by decide) (by decide)
      (by decide),
    (accesses_in_bounds 3 3 1 1 1 2 (by decide) (by decide)).2 (by decide) (by decide)⟩

theorem passBuf_congr (w h er c : ℕ) (s1 s2 : ℕ → ℕ) (hc : c < 4)
    (hag : ∀ o, o < 4 * (w * h) → s1 o = s2 o) :
    ∀ o, o < 4 * (w * h) → passBuf w h er c s1 o = passBuf w h er c s2 o := by
  intro o ho
  unfold passBuf
  by_cases hcond : (o % 4 = c ∧ inInset w h er (o / 4 % w) (o / 4 / w))
  · rw [if_pos hcond, if_pos hcond]
    have hplane : ∀ a b2, a < w → b2 < h → plane w c s1 a b2 = plane w c s2 a b2 := by
      intro a b2 ha hb
      unfold plane
      exact hag _ (offset_lt a b2 c w h ha hb hc)
    rw [totU_congr (plane w c s1) (plane w c s2) w h er _ _ hcond.2 hplane]
  · rw [if_neg hcond, if_neg hcond]
    exact hag o ho

theorem iterBuf_congr (w h er : ℕ) (s1 s2 : ℕ → ℕ)
    (hag : ∀ o, o < 4 * (w * h) → s1 o = s2 o) :
    ∀ o, o < 4 * (w * h) → iterBuf w h er s1 o = iterBuf w h er s2 o := by
  unfold iterBuf
  exact passBuf_congr w h er 3 _ _ (by omega)
    (passBuf_congr w h er 2 _ _ (by omega)
      (passBuf_congr w h er 1 _ _ (by omega)
        (passBuf_congr w h er 0 _ _ (by omega) hag)))

theorem iterN_congr (w h er : ℕ) (s1 s2 : ℕ → ℕ) :
    ∀ n, (∀ o, o < 4 * (w * h) → s1 o = s2 o) →
      ∀ o, o < 4 * (w * h) →
        (iterBuf w h er)^[n] s1 o = (iterBuf w h er)^[n] s2 o := by
  intro n
  induction n with
  | zero => intro hag o ho; exact hag o ho
  | succ n' ih =>
    intro hag o ho
    rw [Function.iterate_succ_apply', Function.iterate_succ_apply']
    exact iterBuf_congr w h er _ _ (ih hag) o ho

/-- C7: the blur is deterministic and depends only on the buffer's
contents — two buffers that agree byte-for-byte on the image region
produce byte-identical outputs on it, for any radius. -/
theorem blur_deterministic (s1 s2 : ℕ → ℕ) (w h radius : ℕ)
    (hag : ∀ o, o < 4 * (w * h) → s1 o = s2 o) :
    ∀ o, o < 4 * (w * h) →
      surface_blur w h radius s1 o = surface_blur w h radius s2 o := by
  unfold surface_blur
  exact iterN_congr w h (radius - 1) s1 s2 MAX_ITERATIONS hag

theorem blur_deterministic_instance :
    surface_blur 3 3 2 (fun o => if o < 36 then 7 else 1) 16
      = surface_blur 3 3 2 (fun _ => 7) 16 :=
  blur_deterministic (fun o => if o < 36 then 7 else 1) (fun _ => 7) 3 3 2
    (by decide) 16 (by decide)

/-- C8, corrected: at radius 2 (er = 1, divisor 4, `1.f/4` exact) a
uniform plane of any byte value is a fixed point of the channel pass for
any number of iterations. -/
theorem uniform_fixed_point_radius_two (v w h n x y : ℕ) (hv : v ≤ 255) :
    (passPlane w h 1)^[n] (fun _ _ => v) x y = v := by
  have hbyte : ∀ u : ℕ, u ≤ 255 → passByte 1 ((4 * u : ℕ) : ℤ) = u := by decide
  have hfix : passPlane w h 1 (fun _ _ => v) = (fun _ _ => v) := by
    funext a b2
    unfold passPlane
    by_cases hin : inInset w h 1 a b2
    · rw [if_pos hin]
      obtain ⟨hcl, hct, hcr, hcb⟩ := corners_open w h 1 a b2 hin
      have hin' := hin
      rw [inInset_iff] at hin'
      have e1 : a + 1 - (a - 1) = 2 := by omega
      have e2 : b2 + 1 - (b2 - 1) = 2 := by omega
      have hsmall : boxSum (fun _ _ : ℕ => v) (cornerL 1 a) (cornerT 1 b2)
          (cornerR w 1 a) (cornerB h 1 b2) < HALF32 := by
        rw [hcl, hct, hcr, hcb, boxSum_const, e1, e2]
        unfold HALF32
        omega
      have htot := totIOf_box (fun _ _ => v) w h 1 a b2 hin hsmall
      rw [hcl, hct, hcr, hcb, boxSum_const, e1, e2] at htot
      rw [htot, show (2 * (2 * v) : ℕ) = 4 * v from by ring]
      exact hbyte v hv
    · rw [if_neg hin]
  rw [Function.iterate_fixed hfix n]

theorem uniform_fixed_point_radius_two_instance :
    (passPlane 5 5 1)^[2] (fun _ _ => 7) 2 2 = 7 :=
  uniform_fixed_point_radius_two 7 5 5 2 2 2 (by decide)

/-- C8 as frozen is false on the code: one iteration at radius 6 on the
uniform 255 11×11 buffer changes the centre byte of channel 0 to 254. -/
theorem uniform_not_fixed_radius_six :
    plane 11 0 (iterBuf 11 11 5 (fun _ => 255)) 5 5 ≠ 255 := by
  rw [plane_iterBuf_one 11 11 5 0 _ 5 5 (by decide) (by decide),
    show plane 11 0 (fun _ => 255) = fun _ _ => 255 from rfl,
    uniform_center_byte]
  decide

/-- C9: at any visited pixel the four clamps are inactive — the window
is exactly the half-open (2er)×(2er) rectangle `(x-er, x+er] × (y-er, y+er]`
and no pixel gets an under-sized clamped window. -/
theorem window_never_clamped (w h er x y : ℕ) (pix : ℕ → ℕ → ℕ)
    (her : 1 ≤ er) (hin : inInset w h er x y) :
    cornerL er x = x - er ∧ cornerT er y = y - er
      ∧ cornerR w er x = x + er ∧ cornerB h er y = y + er
      ∧ boxSum pix (cornerL er x) (cornerT er y) (cornerR w er x) (cornerB h er y)
          = ∑ i ∈ Finset.Ico (x - er + 1) (x + er + 1),
              ∑ j ∈ Finset.Ico (y - er + 1) (y + er + 1), pix i j
      ∧ (Finset.Ico (x - er + 1) (x + er + 1)).card = 2 * er
      ∧ (Finset.Ico (y - er + 1) (y + er + 1)).card = 2 * er := by
  obtain ⟨hcl, hct, hcr, hcb⟩ := corners_open w h er x y hin
  have hin' := hin
  rw [inInset_iff] at hin'
  refine ⟨hcl, hct, hcr, hcb, ?_, ?_, ?_⟩
  · rw [hcl, hct, hcr, hcb]
    rfl
  · rw [Nat.card_Ico]; omega
  · rw [Nat.card_Ico]; omega

theorem window_never_clamped_instance :
    cornerL 1 1 = 1 - 1 ∧ cornerT 1 1 = 1 - 1
      ∧ cornerR 3 1 1 = 1 + 1 ∧ cornerB 3 1 1 = 1 + 1
      ∧ boxSum (fun i j => i * j) (cornerL 1 1) (cornerT 1 1) (cornerR 3 1 1) (cornerB 3 1 1)
          = ∑ i ∈ Finset.Ico (1 - 1 + 1) (1 + 1 + 1),
              ∑ j ∈ Finset.Ico (1 - 1 + 1) (1 + 1 + 1), i * j
      ∧ (Finset.Ico (1 - 1 + 1) (1 + 1 + 1)).card = 2 * 1
      ∧ (Finset.Ico (1 - 1 + 1) (1 + 1 + 1)).card = 2 * 1 :=
  window_never_clamped 3 3 1 1 1 (fun i j => i * j) (by decide) (by decide)

/-- C10: the accumulator holds the true 2D prefix sum mod 2^32, the
blur-pass four-corner combination is the true window sum mod 2^32, and
whenever that window sum is below 2^31 the `int tot` recovers it
exactly (the wraparound cancels). -/
theorem accumulator_mod_spec (pix : ℕ → ℕ → ℕ) (w h er x y : ℕ) :
    (x < w → precalcAt pix w x y = mathS pix x y % W32)
      ∧ (inInset w h er x y →
          totU pix w h er x y
            = boxSum pix (cornerL er x) (cornerT er y) (cornerR w er x) (cornerB h er y)
                % W32)
      ∧ (inInset w h er x y →
          boxSum pix (cornerL er x) (cornerT er y) (cornerR w er x) (cornerB h er y)
              < HALF32 →
          totIOf (totU pix w h er x y)
            = (boxSum pix (cornerL er x) (cornerT er y) (cornerR w er x)
                (cornerB h er y) : ℤ)) :=
  ⟨fun hx => precalc_eq_mathS pix w y x hx,
    fun hin => totU_eq_box pix w h er x y hin,
    fun hin hs => totIOf_box pix w h er x y hin hs⟩

theorem accumulator_mod_spec_instance :
    precalcAt (fun i j => i + j) 3 2 1 = mathS (fun i j => i + j) 2 1 % W32
      ∧ totU (fun i j => i + j) 3 3 1 1 1
          = boxSum (fun i j => i + j) (cornerL 1 1) (cornerT 1 1) (cornerR 3 1 1)
              (cornerB 3 1 1) % W32
      ∧ totIOf (totU (fun i j => i + j) 3 3 1 1 1)
          = (boxSum (fun i j => i + j) (cornerL 1 1) (cornerT 1 1) (cornerR 3 1 1)
              (cornerB 3 1 1) : ℤ) :=
  ⟨(accumulator_mod_spec (fun i j => i + j) 3 3 1 2 1).1 (by decide),
    (accumulator_mod_spec (fun i j => i + j) 3 3 1 1 1).2.1 (by decide),
    (accumulator_mod_spec (fun i j => i + j) 3 3 1 1 1).2.2 (by decide) (by decide)⟩

end SilkBlur
